import Mathlib

/-!
Verification of the store-assembler pipeline of
`src/libcodechecker/libhandlers/store.py` (the `CodeChecker store` command).

The embedding below translates the pure decision logic of the source file into
Lean.  Effects are made explicit:

* the filesystem is a pair of finite association lists (regular files with
  their byte contents, and directories with the names of their immediate
  child files, mirroring the single `os.walk` step taken by the code);
* Python `dict`s (`hash_to_file`, `file_to_hash`) are association lists with
  an overwriting insertion `dset`; Python 2's `dict` iteration order is
  implementation-defined, so the model fixes one concrete order, which no
  theorem below depends on;
* the external collaborators (`plist_parser.parse_plist`, the metadata JSON
  loader, `client.getMissingContentHashes`, `zlib.compress` + `os.stat`, the
  permission check, `client.massStoreRun`) are fields of the environment
  `Env`; a `parse_plist` result of `none` models the exception branch of
  `collect_file_hashes_from_plist`;
* `main` returns its outcome (normal return / `sys.exit` code / uncaught
  exception) together with the ordered list of observable events it performed
  (permission check, temp-file creation, bundling work, the missing-hash RPC,
  the size check, the store RPC, temp-file removal);
* byte strings (file contents, sha256 hex digests) are `String`s; the hasher
  is an abstract function of the content, matching the fact that
  `sha256(...).hexdigest()` is a pure function of the bytes read.

Paths are used as the absolute paths the code produces via `os.path.abspath`:
concrete instances below always use paths starting with `/`, and
`os.path.join` is modelled by `pjoin`, which (like the Python original)
discards the first component when the second is absolute.
-/

namespace CCStore

abbrev Path := String
abbrev Content := String
abbrev Hash := String

/-! ### Python `dict` as an association list with overwriting insertion -/

/-- Lookup in an association list (first entry with the given key). -/
def dget {α : Type} : List (String × α) → String → Option α
  | [], _ => none
  | kv :: m, k => if kv.1 = k then some kv.2 else dget m k

/-- Overwriting insertion, modelling Python's `d[k] = v`: any previous
binding of `k` is discarded and the new binding appended. -/
def dset {α : Type} : List (String × α) → String → α → List (String × α)
  | [], k, v => [(k, v)]
  | kv :: m, k, v => if kv.1 = k then dset m k v else kv :: dset m k v

/-- The keys of an association list, modelling Python's `d.keys()`. -/
def dkeys {α : Type} (m : List (String × α)) : List String := m.map Prod.fst

/-! ### String helpers mirroring the Python string operations used -/

/-- `s.endswith(suf)`. -/
def strEndsWith (s suf : String) : Bool := List.isSuffixOf suf.data s.data

/-- `s.startswith(pre)` (used only to decide absoluteness in `pjoin`). -/
def strStartsWith (s p : String) : Bool := List.isPrefixOf p.data s.data

/-- `s.lstrip('/')`. -/
def lstripSlash (s : String) : String := String.mk (s.data.dropWhile (· = '/'))

/-- `os.path.join(a, b)` for the shapes occurring in the source: if `b` is
absolute it replaces `a` entirely, otherwise the components are joined with a
separator. -/
def pjoin (a b : String) : String :=
  if strStartsWith b "/" then b else a ++ "/" ++ b

/-! ### Environment: filesystem and external collaborators -/

/-- One entry written into the ZIP archive: `zipf.write(src, arcname)` or the
single `zipf.writestr(arcname, json.dumps(file_to_hash))`. -/
inductive ZipEntry where
  | writeFile (arcname : String) (src : Path)
  | writeStr (arcname : String) (manifest : List (Path × Hash))
deriving DecidableEq

/-- The world one invocation of `CodeChecker store` runs against. -/
structure Env where
  /-- Regular files on disk: path ↦ byte contents (`os.path.isfile` /
  `open(f).read()`). -/
  disk : List (Path × Content)
  /-- Directories on disk: path ↦ names of the immediate child files, the
  `filenames` component of the first `os.walk` triple. -/
  dirs : List (Path × List String)
  /-- `plist_parser.parse_plist`, reduced to the referenced source files
  (the report records are not used by the assembler); `none` models the
  exception caught in `collect_file_hashes_from_plist`. -/
  parsePlist : Path → Option (List Path)
  /-- The `name` field of the JSON document at a `metadata.json` path,
  `none` when the document has no such key. -/
  metaName : Path → Option String
  /-- `sha256(bytes).hexdigest()` as an abstract pure function of the
  content. -/
  hasher : Content → Hash
  /-- `client.getMissingContentHashes`. -/
  missing : List Hash → List Hash
  /-- Byte size of the zlib-compressed archive (`os.stat(zip_file).st_size`
  after the compression pass), as a function of the archive's entries. -/
  compressedSize : List ZipEntry → Nat
  /-- Whether `client.massStoreRun` returns normally (`false` models any
  exception raised by the RPC). -/
  storeOk : Bool
  /-- Result of `libclient.check_permission(..., Permission.PRODUCT_STORE, ...)`. -/
  hasPerm : Bool
  /-- Result of `host_check.check_zlib()`. -/
  zlibOk : Bool

/-- `os.path.isfile`. -/
def isfile (env : Env) (p : Path) : Bool := (dget env.disk p).isSome

/-- `os.path.isdir`. -/
def isdir (env : Env) (p : Path) : Bool := (dget env.dirs p).isSome

/-- `os.path.exists`. -/
def pathExists (env : Env) (p : Path) : Bool := isfile env p || isdir env p

/-! ### `collect_file_hashes_from_plist` -/

/-- The two module-level dictionaries of `assemble_zip`:
`hash_to_file` and `file_to_hash`. -/
structure HashState where
  hash_to_file : List (Hash × Path)
  file_to_hash : List (Path × Hash)
deriving DecidableEq

/-- The `for f in files` loop body of `collect_file_hashes_from_plist`:
processes the referenced files in order; on the first file that is not on
disk it returns `false` **keeping the mutations made so far** (the Python
dictionaries are closed over, so the early `return False` does not undo
them). -/
def collectLoop (env : Env) : List Path → HashState → Bool × HashState
  | [], st => (true, st)
  | f :: fs, st =>
    match dget env.disk f with
    | none => (false, st)
    | some content =>
      let h := env.hasher content
      collectLoop env fs
        ⟨dset st.hash_to_file h f, dset st.file_to_hash f h⟩

/-- `collect_file_hashes_from_plist`: parse the plist, then hash every
referenced file.  A parse failure is caught and yields Python `None`
(falsy, modelled as `false`) with the maps untouched. -/
def collect_file_hashes_from_plist (env : Env) (plist_file : Path)
    (st : HashState) : Bool × HashState :=
  match env.parsePlist plist_file with
  | none => (false, st)
  | some files => collectLoop env files st

/-! ### `assemble_zip` -/

/-- The `for f in files` loop of `assemble_zip`, for one input path:
plist files are hashed and, when all their referenced sources exist, written
under `reports/`; a file named exactly `metadata.json` is written under
`reports/` unconditionally; anything else is ignored.  The entry accumulator
models the ZIP file, which is only ever appended to. -/
def processFiles (env : Env) (input_path : Path) :
    List String → HashState → List ZipEntry → HashState × List ZipEntry
  | [], st, acc => (st, acc)
  | f :: fs, st, acc =>
    let plist_file := pjoin input_path f
    if strEndsWith f ".plist" then
      let r := collect_file_hashes_from_plist env plist_file st
      if r.1 then
        processFiles env input_path fs r.2
          (acc ++ [.writeFile (pjoin "reports" f) plist_file])
      else
        processFiles env input_path fs r.2 acc
    else if f = "metadata.json" then
      processFiles env input_path fs st
        (acc ++ [.writeFile (pjoin "reports" f) plist_file])
    else
      processFiles env input_path fs st acc

/-- The `for input_path in inputs` loop of `assemble_zip`.  A non-existent
input path raises `OSError(ENOENT)` (modelled as `none`); a file input is
processed as the single-element list `[input_path]`, a directory input as its
immediate child files. -/
def processInputs (env : Env) :
    List Path → HashState → List ZipEntry →
    Option (HashState × List ZipEntry)
  | [], st, acc => some (st, acc)
  | p :: ps, st, acc =>
    if pathExists env p then
      let files := if isfile env p then [p] else (dget env.dirs p).getD []
      let r := processFiles env p files st acc
      processInputs env ps r.1 r.2
    else none

/-- The single `zipf.writestr('content_hashes.json', json.dumps(file_to_hash))`
manifest entry. -/
def manifestEntry (st : HashState) : ZipEntry :=
  .writeStr "content_hashes.json" st.file_to_hash

/-- The `for f, h in file_to_hash.items()` loop: one `root/` entry per
referenced path whose hash the server reported missing. -/
def contentEntries (st : HashState) (necessary : List Hash) : List ZipEntry :=
  st.file_to_hash.filterMap (fun fh =>
    if fh.2 ∈ necessary then
      some (.writeFile (pjoin "root" (lstripSlash fh.1)) fh.1)
    else none)

/-- Result of a successful `assemble_zip`: the archive's entries in the order
written, the argument of the one `getMissingContentHashes` call, and the
final dictionaries. -/
structure AssembleOut where
  entries : List ZipEntry
  query : List Hash
  st : HashState
deriving DecidableEq

/-- `assemble_zip`: walk the inputs writing report and metadata entries, issue
the single missing-hash query with `hash_to_file.keys()`, write the needed
file contents under `root/`, then write the manifest.  `none` models the
`OSError` raised on a non-existent input path (the final compression pass is
accounted for by `Env.compressedSize`). -/
def assemble_zip (env : Env) (inputs : List Path) : Option AssembleOut :=
  match processInputs env inputs ⟨[], []⟩ [] with
  | none => none
  | some (st, docs) =>
    let query := dkeys st.hash_to_file
    some ⟨docs ++ contentEntries st (env.missing query) ++ [manifestEntry st],
          query, st⟩

/-! ### `__get_run_name` and `main` -/

/-- The `names` list accumulated by `__get_run_name`: one entry per input
path that is a directory containing a `metadata.json`, holding the declared
name or the placeholder `"unnamed result folder"`. -/
def metaNames (env : Env) (input_list : List Path) : List String :=
  input_list.filterMap (fun p =>
    let metafile := pjoin p "metadata.json"
    if isdir env p && pathExists env metafile then
      some ((env.metaName metafile).getD "unnamed result folder")
    else none)

/-- `__get_run_name`: a single non-placeholder name is returned as is;
more than one name yields the composite `multiple projects: ...` label;
otherwise the Python function returns `False` (modelled as `none`). -/
def get_run_name (env : Env) (input_list : List Path) : Option String :=
  let names := metaNames env input_list
  if names.length = 1 ∧ names.getD 0 "" ≠ "unnamed result folder" then
    some (names.getD 0 "")
  else if names.length > 1 then
    some ("multiple projects: " ++ String.intercalate ", " names)
  else
    none

/-- The command-line arguments reaching `main` (`args.input` already
normalised to a list). -/
structure Args where
  input : List Path
  name : Option String
  tag : Option String
  force : Bool

/-- The run name `main` ends up using: the caller-supplied `--name` if
present, else the generated one — which, being tested with `if generated:`,
is rejected not only when `__get_run_name` returns `False` but also when it
returns the empty string. -/
def resolvedName (env : Env) (args : Args) : Option String :=
  match args.name with
  | some n => some n
  | none =>
    match get_run_name env args.input with
    | some n => if n = "" then none else some n
    | none => none

/-- Observable events of one `main` invocation, in program order. -/
inductive Event where
  | permCheck (ok : Bool)
  | mkstemp
  | parseAndHash
  | missingHashQuery (arg : List Hash)
  | sizeCheck (size : Nat)
  | storeRPC (runName : String)
  | removeTemp
deriving DecidableEq

/-- How the invocation ended: normal return, `sys.exit(code)`, or an
exception escaping `main`. -/
inductive Outcome where
  | done
  | exited (code : Nat)
  | raised
deriving DecidableEq

/-- `MAX_UPLOAD_SIZE = 1 * 1024 * 1024 * 1024  # 1GiB`. -/
def MAX_UPLOAD_SIZE : Nat := 1 * 1024 * 1024 * 1024

/-- `main`: zlib check, run-name resolution (exit 2 on failure), permission
check (exit 1 on denial), then `tempfile.mkstemp`, and the
`try/except/finally` block: assembly, the size ceiling check (exit 1 when
exceeded), the store RPC (exit 1 when it raises), with `os.remove(zip_file)`
in `finally` on every path.  `sys.exit` raises `SystemExit`, which the
`except Exception` clause does not catch, so `finally` still removes the
temporary file before the exit code takes effect. -/
def main (env : Env) (args : Args) : Outcome × List Event :=
  if env.zlibOk then
    match resolvedName env args with
    | none => (.exited 2, [])
    | some name =>
      if env.hasPerm then
        match assemble_zip env args.input with
        | none =>
          (.exited 1, [.permCheck true, .mkstemp, .parseAndHash, .removeTemp])
        | some out =>
          let size := env.compressedSize out.entries
          let ev := [Event.permCheck true, .mkstemp, .parseAndHash,
                     .missingHashQuery out.query, .sizeCheck size]
          if size > MAX_UPLOAD_SIZE then
            (.exited 1, ev ++ [.removeTemp])
          else if env.storeOk then
            (.done, ev ++ [.storeRPC name, .removeTemp])
          else
            (.exited 1, ev ++ [.storeRPC name, .removeTemp])
      else
        (.exited 1, [.permCheck false])
  else
    (.raised, [])

/-! ### Specification-side definitions used by the theorems -/

/-- The last element of `files` whose on-disk content hashes to `h` —
the binding `hash_to_file[h]` holds after the loop, since each Python
assignment overwrites the previous representative. -/
def lastWithHash (env : Env) : List Path → Hash → Option Path
  | [], _ => none
  | f :: fs, h =>
    (lastWithHash env fs h).orElse (fun _ =>
      if (dget env.disk f).map env.hasher = some h then some f else none)

/-- Invariant of the two dictionaries: every recorded hash is the hash of the
recorded path's on-disk content, every hash recorded for some path is a key
of `hash_to_file`, and the keys of `hash_to_file` are distinct. -/
def Inv (env : Env) (st : HashState) : Prop :=
  (∀ p h, dget st.file_to_hash p = some h →
    ∃ c, dget env.disk p = some c ∧ h = env.hasher c) ∧
  (∀ p h, dget st.file_to_hash p = some h →
    h ∈ dkeys st.hash_to_file) ∧
  (dkeys st.hash_to_file).Nodup

/-- Is an archive entry the manifest-style `writestr` entry? (Everything the
input walk and the content loop write uses `zipf.write`.) -/
def isManifest : ZipEntry → Bool
  | .writeStr _ _ => true
  | .writeFile _ _ => false

/-! ### Concrete fixtures for counterexamples and witnesses -/

/-- Two referenced files with identical one-byte contents, both on disk; one
report document references both. -/
def envTwin : Env where
  disk := [("/a.c", "x"), ("/b.c", "x")]
  dirs := [("/d", ["r.plist"])]
  parsePlist := fun p => if p = "/d/r.plist" then some ["/a.c", "/b.c"] else none
  metaName := fun _ => none
  hasher := fun c => c
  missing := fun l => l
  compressedSize := fun _ => 0
  storeOk := true
  hasPerm := true
  zlibOk := true

/-- The result of assembling `envTwin`'s single input directory. -/
def outTwin : AssembleOut :=
  ⟨[.writeFile "reports/r.plist" "/d/r.plist",
    .writeFile "root/a.c" "/a.c",
    .writeFile "root/b.c" "/b.c",
    .writeStr "content_hashes.json" [("/a.c", "x"), ("/b.c", "x")]],
   ["x"], ⟨[("x", "/b.c")], [("/a.c", "x"), ("/b.c", "x")]⟩⟩

/-- A report document referencing one on-disk file and one file missing from
disk (`/b.c` was deleted before bundling). -/
def envOrphan : Env where
  disk := [("/a.c", "x")]
  dirs := [("/d", ["r.plist"])]
  parsePlist := fun p => if p = "/d/r.plist" then some ["/a.c", "/b.c"] else none
  metaName := fun _ => none
  hasher := fun c => c
  missing := fun l => l
  compressedSize := fun _ => 0
  storeOk := true
  hasPerm := true
  zlibOk := true

/-- Two input directories, each holding a `metadata.json` that declares no
`name`. -/
def envTwoMeta : Env where
  disk := [("/d1/metadata.json", "{}"), ("/d2/metadata.json", "{}")]
  dirs := [("/d1", ["metadata.json"]), ("/d2", ["metadata.json"])]
  parsePlist := fun _ => none
  metaName := fun _ => none
  hasher := fun c => c
  missing := fun _ => []
  compressedSize := fun _ => 0
  storeOk := true
  hasPerm := true
  zlibOk := true

/-- The report/metadata entries collected from `envTwoMeta`'s two inputs. -/
def docsTwoMeta : List ZipEntry :=
  [.writeFile "reports/metadata.json" "/d1/metadata.json",
   .writeFile "reports/metadata.json" "/d2/metadata.json"]

/-- The invocation of `envTwoMeta` without a caller-supplied run name. -/
def argsTwoMeta : Args := ⟨["/d1", "/d2"], none, none, false⟩

/-- The result of assembling `envTwoMeta`'s two input directories. -/
def outTwoMeta : AssembleOut :=
  ⟨docsTwoMeta ++ [manifestEntry ⟨[], []⟩], [], ⟨[], []⟩⟩

/-- A `metadata.json` passed directly as a *file* input path. -/
def envMetaFile : Env where
  disk := [("/x/metadata.json", "mj")]
  dirs := []
  parsePlist := fun _ => none
  metaName := fun _ => none
  hasher := fun c => c
  missing := fun _ => []
  compressedSize := fun _ => 0
  storeOk := true
  hasPerm := true
  zlibOk := true

/-- Like `envTwin`, but the permission check denies store authority. -/
def envDenied : Env where
  disk := [("/a.c", "x"), ("/b.c", "x")]
  dirs := [("/d", ["r.plist"])]
  parsePlist := fun p => if p = "/d/r.plist" then some ["/a.c", "/b.c"] else none
  metaName := fun _ => none
  hasher := fun c => c
  missing := fun l => l
  compressedSize := fun _ => 0
  storeOk := true
  hasPerm := false
  zlibOk := true

/-- Like `envTwin`, but the compressed archive is one byte over the 1 GiB
ceiling. -/
def envBig : Env where
  disk := [("/a.c", "x"), ("/b.c", "x")]
  dirs := [("/d", ["r.plist"])]
  parsePlist := fun p => if p = "/d/r.plist" then some ["/a.c", "/b.c"] else none
  metaName := fun _ => none
  hasher := fun c => c
  missing := fun l => l
  compressedSize := fun _ => 1073741825
  storeOk := true
  hasPerm := true
  zlibOk := true

/-- Like `envTwin`, but the compressed archive is exactly 1 GiB. -/
def envEdge : Env where
  disk := [("/a.c", "x"), ("/b.c", "x")]
  dirs := [("/d", ["r.plist"])]
  parsePlist := fun p => if p = "/d/r.plist" then some ["/a.c", "/b.c"] else none
  metaName := fun _ => none
  hasher := fun c => c
  missing := fun l => l
  compressedSize := fun _ => 1073741824
  storeOk := true
  hasPerm := true
  zlibOk := true

/-- A plain invocation naming the `/d` input with an explicit run name. -/
def argsNamed : Args := ⟨["/d"], some "r", none, false⟩

/-! ### Dictionary lemmas -/

theorem dkeys_nil {α : Type} : dkeys ([] : List (String × α)) = [] := rfl

theorem dkeys_cons {α : Type} (kv : String × α) (m : List (String × α)) :
    dkeys (kv :: m) = kv.1 :: dkeys m := rfl

theorem dget_dset_self {α : Type} (m : List (String × α)) (k : String)
    (v : α) : dget (dset m k v) k = some v := by
  induction m with
  | nil => simp [dset, dget]
  | cons kv m ih =>
    simp only [dset]
    by_cases h : kv.1 = k
    · rw [if_pos h]; exact ih
    · rw [if_neg h]; simp only [dget]; rw [if_neg h]; exact ih

theorem dget_dset_ne {α : Type} (m : List (String × α)) (k k' : String)
    (v : α) (h : k' ≠ k) : dget (dset m k v) k' = dget m k' := by
  induction m with
  | nil =>
    simp only [dset, dget]
    rw [if_neg (fun hh => h hh.symm)]
  | cons kv m ih =>
    simp only [dset]
    by_cases hk : kv.1 = k
    · rw [if_pos hk, ih]
      simp only [dget]
      rw [if_neg (by rw [hk]; exact fun hh => h hh.symm)]
    · rw [if_neg hk]
      simp only [dget]
      by_cases hk' : kv.1 = k'
      · rw [if_pos hk', if_pos hk']
      · rw [if_neg hk', if_neg hk']; exact ih

theorem self_mem_dkeys_dset {α : Type} (m : List (String × α)) (k : String)
    (v : α) : k ∈ dkeys (dset m k v) := by
  induction m with
  | nil => simp [dset, dkeys]
  | cons kv m ih =>
    simp only [dset]
    by_cases h : kv.1 = k
    · rw [if_pos h]; exact ih
    · rw [if_neg h, dkeys_cons]; exact List.mem_cons_of_mem _ ih

theorem mem_dkeys_dset_elim {α : Type} (m : List (String × α))
    (k x : String) (v : α) :
    x ∈ dkeys (dset m k v) → x = k ∨ x ∈ dkeys m := by
  induction m with
  | nil => intro hx; simpa [dset, dkeys] using hx
  | cons kv m ih =>
    intro hx
    simp only [dset] at hx
    by_cases h : kv.1 = k
    · rw [if_pos h] at hx
      rcases ih hx with h' | h'
      · exact Or.inl h'
      · exact Or.inr (by rw [dkeys_cons]; exact List.mem_cons_of_mem _ h')
    · rw [if_neg h, dkeys_cons] at hx
      rcases List.mem_cons.mp hx with h' | h'
      · exact Or.inr (by rw [dkeys_cons, h']; exact List.mem_cons_self _ _)
      · rcases ih h' with h'' | h''
        · exact Or.inl h''
        · exact Or.inr (by rw [dkeys_cons]; exact List.mem_cons_of_mem _ h'')

theorem mem_dkeys_dset_of_mem {α : Type} (m : List (String × α))
    (k x : String) (v : α) :
    x ∈ dkeys m → x ∈ dkeys (dset m k v) := by
  induction m with
  | nil => intro hx; simp [dkeys] at hx
  | cons kv m ih =>
    intro hx
    rw [dkeys_cons] at hx
    simp only [dset]
    by_cases h : kv.1 = k
    · rw [if_pos h]
      rcases List.mem_cons.mp hx with h' | h'
      · rw [h', h]; exact self_mem_dkeys_dset m k v
      · exact ih h'
    · rw [if_neg h, dkeys_cons]
      rcases List.mem_cons.mp hx with h' | h'
      · rw [h']; exact List.mem_cons_self _ _
      · exact List.mem_cons_of_mem _ (ih h')

theorem nodup_dkeys_dset {α : Type} (m : List (String × α)) (k : String)
    (v : α) : (dkeys m).Nodup → (dkeys (dset m k v)).Nodup := by
  induction m with
  | nil => intro _; simp [dset, dkeys]
  | cons kv m ih =>
    intro hm
    rw [dkeys_cons, List.nodup_cons] at hm
    simp only [dset]
    by_cases h : kv.1 = k
    · rw [if_pos h]; exact ih hm.2
    · rw [if_neg h, dkeys_cons, List.nodup_cons]
      refine ⟨fun hmem => ?_, ih hm.2⟩
      rcases mem_dkeys_dset_elim m k kv.1 v hmem with h' | h'
      · exact h h'
      · exact hm.1 h'

theorem mem_dkeys_of_dget {α : Type} (m : List (String × α)) (k : String)
    (v : α) : dget m k = some v → k ∈ dkeys m := by
  induction m with
  | nil => intro h; simp [dget] at h
  | cons kv m ih =>
    intro h
    rw [dkeys_cons]
    by_cases hk : kv.1 = k
    · rw [hk]; exact List.mem_cons_self _ _
    · simp only [dget, if_neg hk] at h
      exact List.mem_cons_of_mem _ (ih h)

theorem orElseSome {α : Type} (a : α) (f : Unit → Option α) :
    (some a).orElse f = some a := rfl

theorem orElseNone {α : Type} (f : Unit → Option α) :
    Option.orElse none f = f () := rfl

/-! ### Behaviour of the hashing loop -/

theorem collectLoop_ok (env : Env) (files : List Path) (st : HashState)
    (hd : ∀ f ∈ files, (dget env.disk f).isSome) :
    (collectLoop env files st).1 = true := by
  induction files generalizing st with
  | nil => rfl
  | cons g gs ih =>
    rcases Option.isSome_iff_exists.mp (hd g (List.mem_cons_self _ _))
      with ⟨c, hc⟩
    simp only [collectLoop, hc]
    exact ih _ (fun f hf => hd f (List.mem_cons_of_mem _ hf))

theorem collectLoop_h2f (env : Env) (files : List Path) (st : HashState)
    (h : Hash) (hd : ∀ f ∈ files, (dget env.disk f).isSome) :
    dget (collectLoop env files st).2.hash_to_file h =
      (lastWithHash env files h).orElse
        (fun _ => dget st.hash_to_file h) := by
  induction files generalizing st with
  | nil => simp [collectLoop, lastWithHash, orElseNone]
  | cons g gs ih =>
    rcases Option.isSome_iff_exists.mp (hd g (List.mem_cons_self _ _))
      with ⟨c, hc⟩
    simp only [collectLoop, hc]
    rw [ih _ (fun f hf => hd f (List.mem_cons_of_mem _ hf))]
    simp only [lastWithHash]
    cases hlast : lastWithHash env gs h with
    | some x => rw [orElseSome, orElseSome, orElseSome]
    | none =>
      rw [orElseNone, orElseNone]
      by_cases hh : env.hasher c = h
      · rw [hc]
        simp only [Option.map_some']
        rw [if_pos (by rw [hh]), orElseSome, hh]
        exact dget_dset_self _ _ _
      · rw [hc]
        simp only [Option.map_some']
        rw [if_neg (by simpa using hh), orElseNone]
        exact dget_dset_ne _ _ _ _ (fun hne => hh hne.symm)

theorem collectLoop_f2h_not_mem (env : Env) (files : List Path)
    (st : HashState) (f : Path) (hf : f ∉ files) :
    dget (collectLoop env files st).2.file_to_hash f =
      dget st.file_to_hash f := by
  induction files generalizing st with
  | nil => rfl
  | cons g gs ih =>
    have hne : f ≠ g := fun hh => hf (hh ▸ List.mem_cons_self _ _)
    have hnm : f ∉ gs := fun hh => hf (List.mem_cons_of_mem _ hh)
    cases hc : dget env.disk g with
    | none => simp only [collectLoop, hc]
    | some c =>
      simp only [collectLoop, hc]
      rw [ih _ hnm]
      exact dget_dset_ne _ _ _ _ hne

theorem collectLoop_f2h_mem (env : Env) (files : List Path) (st : HashState)
    (f : Path) (hd : ∀ g ∈ files, (dget env.disk g).isSome) (hf : f ∈ files) :
    dget (collectLoop env files st).2.file_to_hash f =
      (dget env.disk f).map env.hasher := by
  induction files generalizing st with
  | nil => exact absurd hf (List.not_mem_nil _)
  | cons g gs ih =>
    rcases Option.isSome_iff_exists.mp (hd g (List.mem_cons_self _ _))
      with ⟨c, hc⟩
    simp only [collectLoop, hc]
    by_cases hmem : f ∈ gs
    · exact ih _ (fun x hx => hd x (List.mem_cons_of_mem _ hx)) hmem
    · have hfg : f = g := by
        rcases List.mem_cons.mp hf with h' | h'
        · exact h'
        · exact absurd h' hmem
      rw [collectLoop_f2h_not_mem env gs _ f hmem]
      subst hfg
      rw [hc]
      simp only [Option.map_some']
      exact dget_dset_self _ _ _

theorem collectLoop_stops (env : Env) (files : List Path) (st : HashState)
    (hm : ∃ f ∈ files, dget env.disk f = none) :
    collectLoop env files st =
      (false,
       (collectLoop env
         (files.takeWhile (fun f => (dget env.disk f).isSome)) st).2) := by
  induction files generalizing st with
  | nil => simp at hm
  | cons g gs ih =>
    cases hc : dget env.disk g with
    | none =>
      simp only [List.takeWhile_cons, hc, Option.isSome_none,
        Bool.false_eq_true, if_false]
      simp only [collectLoop, hc]
    | some c =>
      have hm' : ∃ f ∈ gs, dget env.disk f = none := by
        rcases hm with ⟨f, hf, hnone⟩
        rcases List.mem_cons.mp hf with h' | h'
        · rw [h'] at hnone; rw [hnone] at hc; exact absurd hc (by simp)
        · exact ⟨f, h', hnone⟩
      simp only [List.takeWhile_cons, hc, Option.isSome_some, if_true]
      simp only [collectLoop, hc]
      exact ih _ hm'

/-! ### The dictionary invariant carried through assembly -/

theorem Inv_init (env : Env) : Inv env ⟨[], []⟩ := by
  refine ⟨fun p h hp => ?_, fun p h hp => ?_, ?_⟩
  · simp [dget] at hp
  · simp [dget] at hp
  · simp [dkeys]

theorem Inv_step (env : Env) (st : HashState) (f : Path) (c : Content)
    (hc : dget env.disk f = some c) (hI : Inv env st) :
    Inv env ⟨dset st.hash_to_file (env.hasher c) f,
             dset st.file_to_hash f (env.hasher c)⟩ := by
  obtain ⟨h1, h2, h3⟩ := hI
  refine ⟨fun p h hp => ?_, fun p h hp => ?_, ?_⟩
  · by_cases hpf : p = f
    · subst hpf
      rw [dget_dset_self] at hp
      exact ⟨c, hc, (Option.some_inj.mp hp).symm⟩
    · rw [dget_dset_ne _ _ _ _ hpf] at hp
      exact h1 p h hp
  · by_cases hpf : p = f
    · subst hpf
      rw [dget_dset_self] at hp
      rw [← Option.some_inj.mp hp]
      exact self_mem_dkeys_dset _ _ _
    · rw [dget_dset_ne _ _ _ _ hpf] at hp
      exact mem_dkeys_dset_of_mem _ _ _ _ (h2 p h hp)
  · exact nodup_dkeys_dset _ _ _ h3

theorem Inv_collectLoop (env : Env) (files : List Path) (st : HashState)
    (hI : Inv env st) : Inv env (collectLoop env files st).2 := by
  induction files generalizing st with
  | nil => exact hI
  | cons g gs ih =>
    cases hc : dget env.disk g with
    | none => simpa only [collectLoop, hc] using hI
    | some c =>
      simp only [collectLoop, hc]
      exact ih _ (Inv_step env st g c hc hI)

theorem Inv_collect (env : Env) (plist_file : Path) (st : HashState)
    (hI : Inv env st) :
    Inv env (collect_file_hashes_from_plist env plist_file st).2 := by
  unfold collect_file_hashes_from_plist
  cases env.parsePlist plist_file with
  | none => exact hI
  | some files => exact Inv_collectLoop env files st hI

theorem Inv_processFiles (env : Env) (d : Path) (fs : List String)
    (st : HashState) (acc : List ZipEntry) (hI : Inv env st) :
    Inv env (processFiles env d fs st acc).1 := by
  induction fs generalizing st acc with
  | nil => exact hI
  | cons f fs ih =>
    simp only [processFiles]
    split
    · split
      · exact ih _ _ (Inv_collect env _ st hI)
      · exact ih _ _ (Inv_collect env _ st hI)
    · split
      · exact ih _ _ hI
      · exact ih _ _ hI

theorem Inv_processInputs (env : Env) (ps : List Path) (st : HashState)
    (acc : List ZipEntry) (st' : HashState) (acc' : List ZipEntry)
    (h : processInputs env ps st acc = some (st', acc')) (hI : Inv env st) :
    Inv env st' := by
  induction ps generalizing st acc with
  | nil =>
    simp only [processInputs, Option.some_inj] at h
    rw [← (Prod.mk.injEq .. ▸ h : st = st' ∧ acc = acc').1]
    exact hI
  | cons p ps ih =>
    simp only [processInputs] at h
    split at h
    · exact ih _ _ h (Inv_processFiles env _ _ st acc hI)
    · exact absurd h (by simp)

/-- Structure of a successful `assemble_zip` run, as built by the code. -/
theorem assemble_zip_inv (env : Env) (inputs : List Path)
    (out : AssembleOut) (h : assemble_zip env inputs = some out) :
    ∃ docs, processInputs env inputs ⟨[], []⟩ [] = some (out.st, docs) ∧
      out.query = dkeys out.st.hash_to_file ∧
      out.entries = docs ++ contentEntries out.st (env.missing out.query) ++
        [manifestEntry out.st] := by
  unfold assemble_zip at h
  cases hp : processInputs env inputs ⟨[], []⟩ [] with
  | none => rw [hp] at h; exact absurd h (by simp)
  | some r =>
    rw [hp] at h
    simp only [Option.some_inj] at h
    refine ⟨r.2, ?_, ?_, ?_⟩
    · rw [← h]
    · rw [← h]
    · rw [← h]

/-! ### Entry accumulation during the input walk -/

theorem processFiles_acc_mono (env : Env) (d : Path) (fs : List String)
    (st : HashState) (acc : List ZipEntry) (e : ZipEntry) (he : e ∈ acc) :
    e ∈ (processFiles env d fs st acc).2 := by
  induction fs generalizing st acc with
  | nil => exact he
  | cons f fs ih =>
    simp only [processFiles]
    split
    · split
      · exact ih _ _ (List.mem_append_left _ he)
      · exact ih _ _ he
    · split
      · exact ih _ _ (List.mem_append_left _ he)
      · exact ih _ _ he

theorem processInputs_acc_mono (env : Env) (ps : List Path) (st : HashState)
    (acc : List ZipEntry) (st' : HashState) (acc' : List ZipEntry)
    (e : ZipEntry) (h : processInputs env ps st acc = some (st', acc'))
    (he : e ∈ acc) : e ∈ acc' := by
  induction ps generalizing st acc with
  | nil =>
    simp only [processInputs, Option.some_inj] at h
    rw [← (Prod.mk.injEq .. ▸ h : st = st' ∧ acc = acc').2]
    exact he
  | cons p ps ih =>
    simp only [processInputs] at h
    split at h
    · exact ih _ _ h (processFiles_acc_mono env _ _ st acc e he)
    · exact absurd h (by simp)

theorem processFiles_metadata_mem (env : Env) (d : Path) (fs : List String)
    (st : HashState) (acc : List ZipEntry) (hf : "metadata.json" ∈ fs) :
    ZipEntry.writeFile (pjoin "reports" "metadata.json")
      (pjoin d "metadata.json") ∈ (processFiles env d fs st acc).2 := by
  induction fs generalizing st acc with
  | nil => exact absurd hf (List.not_mem_nil _)
  | cons f fs ih =>
    by_cases hfm : f = "metadata.json"
    · subst hfm
      have hnp : strEndsWith "metadata.json" ".plist" = false := by decide
      simp only [processFiles, hnp, Bool.false_eq_true, if_false, if_pos rfl]
      exact processFiles_acc_mono env _ _ _ _ _
        (List.mem_append_right _ (List.mem_singleton.mpr rfl))
    · have hmem : "metadata.json" ∈ fs := by
        rcases List.mem_cons.mp hf with h' | h'
        · exact absurd h'.symm hfm
        · exact h'
      simp only [processFiles]
      split <;> try split
      all_goals exact ih _ _ hmem

theorem processFiles_no_manifest (env : Env) (d : Path) (fs : List String)
    (st : HashState) (acc : List ZipEntry)
    (hacc : ∀ e ∈ acc, isManifest e = false) :
    ∀ e ∈ (processFiles env d fs st acc).2, isManifest e = false := by
  induction fs generalizing st acc with
  | nil => exact hacc
  | cons f fs ih =>
    have hext : ∀ x : Path,
        ∀ e ∈ acc ++ [ZipEntry.writeFile (pjoin "reports" f) x],
          isManifest e = false := by
      intro x e he
      rcases List.mem_append.mp he with h' | h'
      · exact hacc e h'
      · rw [List.mem_singleton.mp h']; rfl
    simp only [processFiles]
    split
    · split
      · exact ih _ _ (hext _)
      · exact ih _ _ hacc
    · split
      · exact ih _ _ (hext _)
      · exact ih _ _ hacc

theorem processInputs_no_manifest (env : Env) (ps : List Path)
    (st : HashState) (acc : List ZipEntry) (st' : HashState)
    (acc' : List ZipEntry) (h : processInputs env ps st acc = some (st', acc'))
    (hacc : ∀ e ∈ acc, isManifest e = false) :
    ∀ e ∈ acc', isManifest e = false := by
  induction ps generalizing st acc with
  | nil =>
    simp only [processInputs, Option.some_inj] at h
    rw [← (Prod.mk.injEq .. ▸ h : st = st' ∧ acc = acc').2]
    exact hacc
  | cons p ps ih =>
    simp only [processInputs] at h
    split at h
    · exact ih _ _ h (processFiles_no_manifest env _ _ st acc hacc)
    · exact absurd h (by simp)

theorem contentEntries_no_manifest (st : HashState) (necessary : List Hash) :
    ∀ e ∈ contentEntries st necessary, isManifest e = false := by
  intro e he
  unfold contentEntries at he
  rcases List.mem_filterMap.mp he with ⟨fh, _, hfh⟩
  split at hfh
  · rw [← Option.some_inj.mp hfh]; rfl
  · exact absurd hfh (by simp)

/-! ### Claim C1 -/

/-- C1, counterexample: the claim says the representative path recorded in
`hash_to_file` for a shared hash is the *first* path processed.  With two
identical files `/a.c`, `/b.c` processed in that order, the recorded
representative is `/b.c`, the last one, because `hash_to_file[content_hash] = f`
overwrites. -/
theorem C1_counterexample :
    collect_file_hashes_from_plist envTwin "/d/r.plist" ⟨[], []⟩ =
      (true, ⟨[("x", "/b.c")], [("/a.c", "x"), ("/b.c", "x")]⟩) ∧
    ("/b.c" : String) ≠ "/a.c" := by decide

/-- C1, amended: in the ContentHashMap built during assembly, the
hash-to-representative-path direction is last-writer-wins — after hashing a
report's referenced files, the representative recorded for a hash is the
*last* processed path with that hash (falling back to the previous binding
when no processed file has it) — while the path-to-hash direction keeps an
entry, with its own hash, for every referenced path including duplicates. -/
theorem C1_last_writer_wins (env : Env) (plist : Path) (files : List Path)
    (st : HashState) (h : Hash) (f : Path)
    (hp : env.parsePlist plist = some files)
    (hd : ∀ g ∈ files, (dget env.disk g).isSome)
    (hf : f ∈ files) :
    (collect_file_hashes_from_plist env plist st).1 = true ∧
    dget (collect_file_hashes_from_plist env plist st).2.hash_to_file h =
      (lastWithHash env files h).orElse (fun _ => dget st.hash_to_file h) ∧
    dget (collect_file_hashes_from_plist env plist st).2.file_to_hash f =
      (dget env.disk f).map env.hasher := by
  unfold collect_file_hashes_from_plist
  rw [hp]
  exact ⟨collectLoop_ok env files st hd,
         collectLoop_h2f env files st h hd,
         collectLoop_f2h_mem env files st f hd hf⟩

/-- C1, witness: the amended theorem applied to the twin-file fixture. -/
theorem C1_witness :
    (collect_file_hashes_from_plist envTwin "/d/r.plist" ⟨[], []⟩).1 = true ∧
    dget (collect_file_hashes_from_plist envTwin "/d/r.plist"
        ⟨[], []⟩).2.hash_to_file "x" =
      (lastWithHash envTwin ["/a.c", "/b.c"] "x").orElse
        (fun _ => dget (⟨[], []⟩ : HashState).hash_to_file "x") ∧
    dget (collect_file_hashes_from_plist envTwin "/d/r.plist"
        ⟨[], []⟩).2.file_to_hash "/a.c" =
      (dget envTwin.disk "/a.c").map envTwin.hasher :=
  C1_last_writer_wins envTwin "/d/r.plist" ["/a.c", "/b.c"] ⟨[], []⟩ "x" "/a.c"
    (by decide) (by decide) (by decide)

/-! ### Claim C2 -/

/-- C2, counterexample: `/d/r.plist` references `/a.c` (present) and `/b.c`
(missing).  The report document is indeed dropped (no `reports/` entry), but
`/a.c` — hashed before the missing file was encountered — still contributes
to both maps, hence to the manifest and even to a `root/` content entry,
contradicting the claim that none of the document's referenced files
contribute. -/
theorem C2_counterexample :
    assemble_zip envOrphan ["/d"] =
      some ⟨[.writeFile "root/a.c" "/a.c",
             .writeStr "content_hashes.json" [("/a.c", "x")]],
            ["x"], ⟨[("x", "/a.c")], [("/a.c", "x")]⟩⟩ := by decide

/-- C2, amended: when a report document references a file missing from disk,
the document itself is not written into the bundle, but the referenced files
processed *before* the first missing one keep their entries in both maps
(the hashing loop early-returns, leaving the shared dictionaries as already
mutated); only the files from the first missing one onwards contribute
nothing. -/
theorem C2_partial_contribution (env : Env) (d f : String)
    (files : List Path) (st : HashState) (acc : List ZipEntry)
    (hpl : strEndsWith f ".plist" = true)
    (hp : env.parsePlist (pjoin d f) = some files)
    (hm : ∃ g ∈ files, dget env.disk g = none) :
    processFiles env d [f] st acc =
      ((collectLoop env
          (files.takeWhile (fun g => (dget env.disk g).isSome)) st).2,
       acc) := by
  simp only [processFiles, hpl, if_true]
  unfold collect_file_hashes_from_plist
  rw [hp]
  simp only []
  rw [collectLoop_stops env files st hm]
  simp [processFiles]

/-- C2, witness: the amended theorem applied to the orphan fixture. -/
theorem C2_witness :
    processFiles envOrphan "/d" ["r.plist"] ⟨[], []⟩ [] =
      ((collectLoop envOrphan
          (["/a.c", "/b.c"].takeWhile
            (fun g => (dget envOrphan.disk g).isSome)) ⟨[], []⟩).2,
       []) :=
  C2_partial_contribution envOrphan "/d" "r.plist" ["/a.c", "/b.c"] ⟨[], []⟩ []
    (by decide) (by decide) (by decide)

/-! ### Claim C3 -/

/-- C3, confirmed: when the permission check denies store authority, the run
aborts (it never returns normally) before any bundling work: no temporary
bundle file is created, no report parsing or file hashing occurs, and
neither the missing-hash reconciliation RPC nor the store RPC is issued. -/
theorem C3_denial_before_bundling (env : Env) (args : Args)
    (h : env.hasPerm = false) :
    (main env args).1 ≠ Outcome.done ∧
    Event.mkstemp ∉ (main env args).2 ∧
    Event.parseAndHash ∉ (main env args).2 ∧
    (∀ q, Event.missingHashQuery q ∉ (main env args).2) ∧
    (∀ n, Event.storeRPC n ∉ (main env args).2) := by
  cases hz : env.zlibOk
  · simp [main, hz]
  · cases hres : resolvedName env args
    · simp [main, hz, hres]
    · simp [main, hz, hres, h]

/-- C3, witness: the theorem applied to the denied-permission fixture. -/
theorem C3_witness :
    (main envDenied argsNamed).1 ≠ Outcome.done ∧
    Event.mkstemp ∉ (main envDenied argsNamed).2 :=
  ⟨(C3_denial_before_bundling envDenied argsNamed rfl).1,
   (C3_denial_before_bundling envDenied argsNamed rfl).2.1⟩

/-! ### Claim C4 -/

/-- C4, confirmed: when the compressed bundle's byte size exceeds the 1 GiB
ceiling, `main` exits with code 1 before `massStoreRun` is ever invoked, so
no store RPC carrying the oversized bundle is issued on any invocation. -/
theorem C4_size_abort (env : Env) (args : Args) (out : AssembleOut)
    (hA : assemble_zip env args.input = some out)
    (hBig : env.compressedSize out.entries > MAX_UPLOAD_SIZE) :
    (∀ n, Event.storeRPC n ∉ (main env args).2) ∧
    (Event.mkstemp ∈ (main env args).2 →
      (main env args).1 = Outcome.exited 1) := by
  cases hz : env.zlibOk
  · simp [main, hz]
  · cases hres : resolvedName env args
    · simp [main, hz, hres]
    · cases hperm : env.hasPerm
      · simp [main, hz, hres, hperm]
      · simp only [main, hz, hres, hperm, hA]
        rw [if_pos hBig]
        constructor
        · intro n
          simp
        · intro _
          rfl

/-- C4, witness: the theorem applied to the over-the-ceiling fixture. -/
theorem C4_witness :
    Event.storeRPC "r" ∉ (main envBig argsNamed).2 ∧
    (main envBig argsNamed).1 = Outcome.exited 1 :=
  ⟨(C4_size_abort envBig argsNamed
      ⟨[.writeFile "reports/r.plist" "/d/r.plist",
        .writeFile "root/a.c" "/a.c",
        .writeFile "root/b.c" "/b.c",
        .writeStr "content_hashes.json" [("/a.c", "x"), ("/b.c", "x")]],
       ["x"], ⟨[("x", "/b.c")], [("/a.c", "x"), ("/b.c", "x")]⟩⟩
      (by decide) (by decide)).1 "r",
   (C4_size_abort envBig argsNamed
      ⟨[.writeFile "reports/r.plist" "/d/r.plist",
        .writeFile "root/a.c" "/a.c",
        .writeFile "root/b.c" "/b.c",
        .writeStr "content_hashes.json" [("/a.c", "x"), ("/b.c", "x")]],
       ["x"], ⟨[("x", "/b.c")], [("/a.c", "x"), ("/b.c", "x")]⟩⟩
      (by decide) (by decide)).2 (by decide)⟩

/-! ### Claim C5 -/

/-- C5, confirmed: on every execution that creates the temporary bundle file
(`tempfile.mkstemp`), the last observable event of the invocation is the
removal of that file — the `finally` clause runs on the successful path, on
the size-exceeded `sys.exit`, and on any exception from assembly or the
store RPC. -/
theorem C5_temp_always_removed (env : Env) (args : Args)
    (h : Event.mkstemp ∈ (main env args).2) :
    ((main env args).2).getLast? = some Event.removeTemp := by
  cases hz : env.zlibOk
  · simp [main, hz] at h
  · cases hres : resolvedName env args
    · simp [main, hz, hres] at h
    · cases hperm : env.hasPerm
      · simp [main, hz, hres, hperm] at h
      · cases hA : assemble_zip env args.input
        · simp [main, hz, hres, hperm, hA]
        · simp only [main, hz, hres, hperm, hA]
          by_cases hs : env.compressedSize
              ((assemble_zip env args.input).get (by rw [hA]; rfl)).entries >
                MAX_UPLOAD_SIZE
          all_goals
            cases hso : env.storeOk <;>
              simp [hA, hso, List.getLast?_concat] <;>
              split <;>
              simp [List.getLast?_concat]

/-- C5, witness: the theorem applied to a fully successful invocation. -/
theorem C5_witness :
    ((main envTwin argsNamed).2).getLast? = some Event.removeTemp :=
  C5_temp_always_removed envTwin argsNamed (by decide)

theorem contentEntries_empty (st : HashState) : contentEntries st [] = [] := by
  unfold contentEntries
  rw [List.filterMap_eq_nil_iff]
  intro fh _
  rw [if_neg (List.not_mem_nil _)]

/-! ### Claim C6 -/

/-- C6, confirmed: when the remote reports no hashes missing, the assembled
bundle is exactly the surviving report entries and metadata entries collected
by the input walk followed by the single manifest entry recording the full
path-to-hash map — zero content entries — and the manifest (the only
`writestr`-style entry) is the last entry written. -/
theorem C6_empty_missing_set (env : Env) (inputs : List Path)
    (st : HashState) (docs : List ZipEntry)
    (hP : processInputs env inputs ⟨[], []⟩ [] = some (st, docs))
    (hEmpty : env.missing (dkeys st.hash_to_file) = []) :
    assemble_zip env inputs =
      some ⟨docs ++ [manifestEntry st], dkeys st.hash_to_file, st⟩ ∧
    (∀ e ∈ docs, isManifest e = false) ∧
    (docs ++ [manifestEntry st]).getLast? = some (manifestEntry st) := by
  refine ⟨?_, ?_, List.getLast?_concat _⟩
  · unfold assemble_zip
    rw [hP]
    simp only [hEmpty, contentEntries_empty, List.append_nil]
  · exact processInputs_no_manifest env inputs ⟨[], []⟩ [] st docs hP
      (fun e he => absurd he (List.not_mem_nil _))

/-- C6, witness: the theorem applied to the two-metadata fixture, whose
remote reports nothing missing. -/
theorem C6_witness :
    assemble_zip envTwoMeta ["/d1", "/d2"] =
      some ⟨docsTwoMeta ++ [manifestEntry ⟨[], []⟩],
            dkeys (⟨[], []⟩ : HashState).hash_to_file, ⟨[], []⟩⟩ :=
  (C6_empty_missing_set envTwoMeta ["/d1", "/d2"] ⟨[], []⟩ docsTwoMeta
    (by decide) (by decide)).1

/-! ### Claim C7 -/

/-- C7, confirmed: two distinct referenced paths with byte-identical on-disk
contents are mapped to the same content hash, and that hash occurs exactly
once in the single batched `getMissingContentHashes` query, whose argument —
the distinct key set of `hash_to_file` — is duplicate-free. -/
theorem C7_dedup_single_query (env : Env) (inputs : List Path)
    (out : AssembleOut) (p₁ p₂ : Path) (h₁ h₂ : Hash) (c : Content)
    (hA : assemble_zip env inputs = some out)
    (hne : p₁ ≠ p₂)
    (hm1 : dget out.st.file_to_hash p₁ = some h₁)
    (hm2 : dget out.st.file_to_hash p₂ = some h₂)
    (hc1 : dget env.disk p₁ = some c)
    (hc2 : dget env.disk p₂ = some c) :
    h₁ = h₂ ∧ out.query.count h₁ = 1 ∧ out.query.Nodup := by
  obtain ⟨docs, hP, hq, -⟩ := assemble_zip_inv env inputs out hA
  obtain ⟨I1, I2, I3⟩ :=
    Inv_processInputs env inputs ⟨[], []⟩ [] out.st docs hP (Inv_init env)
  obtain ⟨c₁, hcc₁, hh₁⟩ := I1 p₁ h₁ hm1
  obtain ⟨c₂, hcc₂, hh₂⟩ := I1 p₂ h₂ hm2
  have e₁ : c₁ = c := by
    rw [hc1] at hcc₁; exact Option.some_inj.mp hcc₁.symm
  have e₂ : c₂ = c := by
    rw [hc2] at hcc₂; exact Option.some_inj.mp hcc₂.symm
  refine ⟨by rw [hh₁, hh₂, e₁, e₂], ?_, ?_⟩
  · rw [hq]
    exact List.count_eq_one_of_mem I3 (I2 p₁ h₁ hm1)
  · rw [hq]
    exact I3

/-- C7, witness: the theorem applied to the twin-file fixture. -/
theorem C7_witness :
    ("x" : Hash) = "x" ∧ outTwin.query.count "x" = 1 ∧ outTwin.query.Nodup :=
  C7_dedup_single_query envTwin ["/d"] outTwin "/a.c" "/b.c" "x" "x" "x"
    (by decide) (by decide) (by decide) (by decide) (by decide) (by decide)

/-! ### Claim C8 -/

theorem composite_ne_empty (s : String) : "multiple projects: " ++ s ≠ "" := by
  intro h
  have hlen := congrArg String.length h
  rw [String.length_append] at hlen
  have h19 : ("multiple projects: " : String).length = 19 := rfl
  have h0 : ("" : String).length = 0 := rfl
  omega

/-- C8, counterexample: with two metadata documents and no declared name
anywhere, the claim demands a missing-name failure with exit code 2; the
code instead synthesizes a composite label out of the `"unnamed result
folder"` placeholders and completes the whole store successfully. -/
theorem C8_counterexample :
    get_run_name envTwoMeta ["/d1", "/d2"] =
      some "multiple projects: unnamed result folder, unnamed result folder" ∧
    (main envTwoMeta argsTwoMeta).1 = Outcome.done := by decide

/-- C8, amended: when the caller supplies no run name: if exactly one
metadata document exists and declares a non-empty name, that name is used;
if two or more metadata documents exist, a composite label enumerating the
collected names — with the `"unnamed result folder"` placeholder standing in
for each document that declares none — is used, even when no document
declares a name; the invocation fails with exit code 2 only when no metadata
document is found, or when exactly one is found and it declares no name (or
declares the empty string, which the truthiness test rejects). -/
theorem C8_name_derivation (env : Env) (args : Args)
    (hn : args.name = none) (hz : env.zlibOk = true) :
    (∀ n, metaNames env args.input = [n] → n ≠ "unnamed result folder" →
      n ≠ "" → resolvedName env args = some n) ∧
    (2 ≤ (metaNames env args.input).length →
      resolvedName env args =
        some ("multiple projects: " ++
          String.intercalate ", " (metaNames env args.input))) ∧
    ((metaNames env args.input = [] ∨
      metaNames env args.input = ["unnamed result folder"] ∨
      metaNames env args.input = [""]) →
      (main env args).1 = Outcome.exited 2) := by
  refine ⟨?_, ?_, ?_⟩
  · intro n h1 h2 h3
    unfold resolvedName
    rw [hn]
    unfold get_run_name
    rw [h1]
    rw [if_pos ⟨rfl, by simpa using h2⟩]
    simp [h3]
  · intro hlen
    unfold resolvedName
    rw [hn]
    unfold get_run_name
    rw [if_neg (by rintro ⟨hl, -⟩; omega)]
    rw [if_pos (by omega : 1 < (metaNames env args.input).length)]
    simp [composite_ne_empty]
  · intro hcase
    have hres : resolvedName env args = none := by
      unfold resolvedName
      rw [hn]
      unfold get_run_name
      rcases hcase with h | h | h <;> rw [h] <;> rfl
    simp [main, hz, hres]

/-- C8, witness: the amended theorem applied to the two-unnamed-metadata
fixture. -/
theorem C8_witness :
    resolvedName envTwoMeta argsTwoMeta =
      some ("multiple projects: " ++
        String.intercalate ", " (metaNames envTwoMeta argsTwoMeta.input)) :=
  (C8_name_derivation envTwoMeta argsTwoMeta rfl rfl).2.1 (by decide)

/-! ### Claim C9 -/

theorem processInputs_metadata_mem (env : Env) (ps : List Path)
    (st : HashState) (acc : List ZipEntry) (st' : HashState)
    (acc' : List ZipEntry) (p : Path) (children : List String)
    (h : processInputs env ps st acc = some (st', acc'))
    (hp : p ∈ ps) (hnf : dget env.disk p = none)
    (hd : dget env.dirs p = some children)
    (hm : "metadata.json" ∈ children) :
    ZipEntry.writeFile (pjoin "reports" "metadata.json")
      (pjoin p "metadata.json") ∈ acc' := by
  induction ps generalizing st acc with
  | nil => exact absurd hp (List.not_mem_nil _)
  | cons q ps ih =>
    simp only [processInputs] at h
    split at h
    · by_cases hqp : q = p
      · subst hqp
        have hfiles :
            (if isfile env q then [q] else (dget env.dirs q).getD []) =
              children := by
          have hq : isfile env q = false := by
            unfold isfile; rw [hnf]; rfl
          rw [hq]
          simp [hd]
        rw [hfiles] at h
        exact processInputs_acc_mono env ps _ _ st' acc' _ h
          (processFiles_metadata_mem env q children st acc hm)
      · have hp' : p ∈ ps := by
          rcases List.mem_cons.mp hp with h' | h'
          · exact absurd h'.symm hqp
          · exact h'
        exact ih _ _ h hp'
    · exact absurd h (by simp)

/-- C9, counterexample: a metadata document supplied directly as a *file*
input path is not included in the bundle: the loop variable `f` is then the
absolute path, so `f == 'metadata.json'` never matches and the assembled
archive holds only the manifest, contradicting "regardless of whether the
input path naming it is a directory or a file". -/
theorem C9_counterexample :
    assemble_zip envMetaFile ["/x/metadata.json"] =
      some ⟨[.writeStr "content_hashes.json" []], [], ⟨[], []⟩⟩ := by decide

/-- C9, amended: every `metadata.json` discovered as an immediate child of a
*directory* input path is written into the bundle unconditionally — whatever
the fate of any report or referenced file, and with no hashing or
deduplication applied — but a metadata file supplied directly as a file
input path is not included. -/
theorem C9_metadata_from_dir_unconditional (env : Env) (inputs : List Path)
    (out : AssembleOut) (p : Path) (children : List String)
    (hA : assemble_zip env inputs = some out)
    (hp : p ∈ inputs)
    (hnf : dget env.disk p = none)
    (hd : dget env.dirs p = some children)
    (hm : "metadata.json" ∈ children) :
    ZipEntry.writeFile (pjoin "reports" "metadata.json")
      (pjoin p "metadata.json") ∈ out.entries := by
  obtain ⟨docs, hP, -, hent⟩ := assemble_zip_inv env inputs out hA
  rw [hent]
  exact List.mem_append_left _ (List.mem_append_left _
    (processInputs_metadata_mem env inputs ⟨[], []⟩ [] out.st docs p children
      hP hp hnf hd hm))

/-- C9, witness: the amended theorem applied to the two-metadata fixture. -/
theorem C9_witness :
    ZipEntry.writeFile (pjoin "reports" "metadata.json")
      (pjoin "/d1" "metadata.json") ∈ outTwoMeta.entries :=
  C9_metadata_from_dir_unconditional envTwoMeta ["/d1", "/d2"] outTwoMeta
    "/d1" ["metadata.json"] (by decide) (by decide) (by decide) (by decide)
    (by decide)

/-! ### Claim C10 -/

/-- C10, confirmed: the ceiling comparison is strict — `MAX_UPLOAD_SIZE`
equals `2 ^ 30` bytes, a compressed bundle of at most `2 ^ 30` bytes passes
the check and the store RPC is issued, and only a strictly larger bundle
triggers the size-exceeded abort (exit code 1, no store RPC). -/
theorem C10_strict_ceiling (env : Env) (args : Args) (n : String)
    (out : AssembleOut)
    (hz : env.zlibOk = true)
    (hn : resolvedName env args = some n)
    (hperm : env.hasPerm = true)
    (hA : assemble_zip env args.input = some out) :
    MAX_UPLOAD_SIZE = 2 ^ 30 ∧
    (env.compressedSize out.entries ≤ 2 ^ 30 →
      Event.storeRPC n ∈ (main env args).2) ∧
    (2 ^ 30 < env.compressedSize out.entries →
      (main env args).1 = Outcome.exited 1 ∧
      Event.storeRPC n ∉ (main env args).2) := by
  have hmax : MAX_UPLOAD_SIZE = 2 ^ 30 := by decide
  refine ⟨hmax, ?_, ?_⟩
  · intro hle
    simp only [main, hz, hn, hperm, hA]
    rw [if_neg (by omega : ¬ env.compressedSize out.entries > MAX_UPLOAD_SIZE)]
    cases hso : env.storeOk <;> simp
  · intro hgt
    simp only [main, hz, hn, hperm, hA]
    rw [if_pos (by omega : env.compressedSize out.entries > MAX_UPLOAD_SIZE)]
    exact ⟨rfl, by simp⟩

/-- C10, witness: the theorem applied to the exactly-1-GiB fixture — the
boundary bundle is transmitted. -/
theorem C10_witness :
    Event.storeRPC "r" ∈ (main envEdge argsNamed).2 :=
  (C10_strict_ceiling envEdge argsNamed "r"
    ⟨[.writeFile "reports/r.plist" "/d/r.plist",
      .writeFile "root/a.c" "/a.c",
      .writeFile "root/b.c" "/b.c",
      .writeStr "content_hashes.json" [("/a.c", "x"), ("/b.c", "x")]],
     ["x"], ⟨[("x", "/b.c")], [("/a.c", "x"), ("/b.c", "x")]⟩⟩
    rfl rfl rfl (by decide)).2.1 (by decide)

end CCStore
